import Mathlib

/-!
Verification development for the UK-Vacancies-Time-Series-Analysis repository.

The pipeline under study (src/UK_Vacancies_Analysis.py) reads ONS vacancy
snapshot files, extracts the release ("vintage") date of each file, parses the
monthly rows, consolidates everything into one long-format revision table,
selects the latest vintage per month ("canonical series"), places it on a
month-start grid, and assembles an ARIMA forecast table.

Shallow embedding conventions:
- A calendar month is a `Nat`: year * 12 + (monthOfYear - 1), so the month
  immediately after `m` is `m + 1` and a month-start grid is a `Nat` range.
- A vintage (a full calendar date) is a `Nat` code `y * 10000 + m * 100 + d`,
  which orders chronologically; the missing vintage (pandas `NaT`) is `none`
  in `Option Nat`.
- Values are `Rat` (pandas floats on this data are decimal literals).
- A snapshot file is its decoded text: the raw lines (used for vintage
  extraction) together with the two-column rows the CSV reader produces
  (used for observation parsing).
- `DataFrame.sort_values` with its default kind (quicksort) guarantees a
  key-sorted arrangement of the same rows, with missing keys placed last,
  but pandas does not document it as stable; it is embedded as a concrete
  executable sort, and every claim theorem about canonical selection relies
  only on sortedness and membership, never on the relative order of rows
  with equal keys.
-/

namespace UKV

/-! ## Characters and small string utilities -/

def digitVal (c : Char) : Nat := c.toNat - '0'.toNat

/-- Leading-segment equality: the first list is char-for-char a prefix of the second. -/
def leadEq : List Char → List Char → Bool
  | [], _ => true
  | _ :: _, [] => false
  | p :: ps, c :: cs => p == c && leadEq ps cs

/-- Substring test: embeds the Python `pat in line` containment check. -/
def hasSub : List Char → List Char → Bool
  | [], pat => leadEq pat []
  | h :: t, pat => leadEq pat (h :: t) || hasSub t pat

/-- Embeds Python `str.title()`: the first letter of each maximal run of
letters is upper-cased, the rest lower-cased (non-letters end a run). -/
def titleCaseAux : Bool → List Char → List Char
  | _, [] => []
  | prevAlpha, c :: cs =>
    (if c.isAlpha then (if prevAlpha then c.toLower else c.toUpper) else c)
      :: titleCaseAux c.isAlpha cs

def titleCase (s : String) : String := ⟨titleCaseAux false s.toList⟩

/-! ## Calendar arithmetic (mirrors the validity checks done by
`pd.to_datetime` with an explicit format) -/

def isLeap (y : Nat) : Bool := (y % 4 == 0 && y % 100 != 0) || y % 400 == 0

def daysInMonth (y m : Nat) : Nat :=
  if m == 2 then (if isLeap y then 29 else 28)
  else if m == 4 || m == 6 || m == 9 || m == 11 then 30
  else 31

/-- Day-month-year to the chronologically ordered vintage code. -/
def encodeDMY (d m y : Nat) : Nat := y * 10000 + m * 100 + d

/-- A date accepted by `pd.to_datetime(..., format="%d-%m-%Y")`: calendar-valid
and inside the representable `pd.Timestamp` range (whose earliest whole day is
1677-09-22 and latest 2262-04-11); out-of-range dates raise and the caller
turns the exception into the missing vintage. -/
def validDMY (d m y : Nat) : Bool :=
  1 ≤ m && m ≤ 12 && 1 ≤ d && d ≤ daysInMonth y m &&
  16770922 ≤ encodeDMY d m y && encodeDMY d m y ≤ 22620411

/-! ## Vintage extraction (`VacanciesStructuring.extract_vintage_date`) -/

/-- The release-date marker scanned for on each line. -/
def relMarker : List Char := "Release date".toList

/-- The shape test of the regex `\d{2}-\d{2}-\d{4}` at the head of the list:
on success returns the (day, month, year) digits exactly as written. -/
def dmyAt : List Char → Option (Nat × Nat × Nat)
  | d1 :: d2 :: h1 :: m1 :: m2 :: h2 :: y1 :: y2 :: y3 :: y4 :: _ =>
    if d1.isDigit && d2.isDigit && h1 == '-' && m1.isDigit && m2.isDigit &&
       h2 == '-' && y1.isDigit && y2.isDigit && y3.isDigit && y4.isDigit then
      some (digitVal d1 * 10 + digitVal d2,
            digitVal m1 * 10 + digitVal m2,
            digitVal y1 * 1000 + digitVal y2 * 100 + digitVal y3 * 10 + digitVal y4)
    else none
  | _ => none

/-- Leftmost match of `\d{2}-\d{2}-\d{4}`, embedding `re.search`. -/
def findDMY : List Char → Option (Nat × Nat × Nat)
  | [] => none
  | c :: t =>
    match dmyAt (c :: t) with
    | some r => some r
    | none => findDMY t

/-- Embeds `extract_vintage_date`: scan the lines; on the first line holding
the marker and a regex match, parse that first match; an invalid date raises
inside the surrounding try-block, so the whole scan yields the missing
vintage (`none`, the embedding of `pd.NaT`). Marker lines without any match
are skipped and scanning continues, as in the source loop. -/
def extract_vintage_date : List String → Option Nat
  | [] => none
  | line :: rest =>
    if hasSub line.toList relMarker then
      match findDMY line.toList with
      | some (d, m, y) =>
        if validDMY d m y then some (encodeDMY d m y) else none
      | none => extract_vintage_date rest
    else extract_vintage_date rest

/-! ## Monthly-row parsing (`VacanciesStructuring.parse_monthly_series`) -/

/-- Month abbreviations in title case, as produced by `.str.title()` and
consumed by the `%b` directive. Index = month-of-year minus one. -/
def monthNum (a b c : Char) : Option Nat :=
  if a == 'J' && b == 'a' && c == 'n' then some 0
  else if a == 'F' && b == 'e' && c == 'b' then some 1
  else if a == 'M' && b == 'a' && c == 'r' then some 2
  else if a == 'A' && b == 'p' && c == 'r' then some 3
  else if a == 'M' && b == 'a' && c == 'y' then some 4
  else if a == 'J' && b == 'u' && c == 'n' then some 5
  else if a == 'J' && b == 'u' && c == 'l' then some 6
  else if a == 'A' && b == 'u' && c == 'g' then some 7
  else if a == 'S' && b == 'e' && c == 'p' then some 8
  else if a == 'O' && b == 'c' && c == 't' then some 9
  else if a == 'N' && b == 'o' && c == 'v' then some 10
  else if a == 'D' && b == 'e' && c == 'c' then some 11
  else none

/-- Embeds the row filter `str.match(r"\d{4} [A-Z]{3}")`: `re.match` anchors
at the start only, the pattern is case-sensitive, and nothing anchors the
end, so this is a prefix test. -/
def rawDateMatches (s : String) : Bool :=
  match s.toList with
  | d1 :: d2 :: d3 :: d4 :: sp :: u1 :: u2 :: u3 :: _ =>
    d1.isDigit && d2.isDigit && d3.isDigit && d4.isDigit && sp == ' ' &&
    u1.isUpper && u2.isUpper && u3.isUpper
  | _ => false

/-- Embeds `pd.to_datetime(raw.str.title(), format="%Y %b", errors="coerce")`:
an exact whole-string match of four digits, a space, and a title-case month
abbreviation; any other shape coerces to a missing date (here `none`).
Returns the month index (year * 12 + month-of-year - 1). -/
def parseMonthLabel (s : String) : Option Nat :=
  match (titleCase s).toList with
  | [y1, y2, y3, y4, sp, a, b, c] =>
    if y1.isDigit && y2.isDigit && y3.isDigit && y4.isDigit && sp == ' ' then
      match monthNum a b c with
      | some mi =>
        some ((digitVal y1 * 1000 + digitVal y2 * 100 + digitVal y3 * 10 + digitVal y4) * 12 + mi)
      | none => none
    else none
  | _ => none

/-- Embeds the `.str.replace(chr 34, empty)` step before numeric parsing. -/
def stripQuotes (s : String) : String := ⟨s.toList.filter (fun c => !(c == '"'))⟩

def digitsToNat (l : List Char) : Nat := l.foldl (fun n c => n * 10 + digitVal c) 0

/-- Decimal-literal parse of an unsigned number: digits, optionally a point
and fraction digits, at least one digit in total. -/
def parseUnsigned (l : List Char) : Option Rat :=
  let ip := l.takeWhile Char.isDigit
  let rest := l.dropWhile Char.isDigit
  match rest with
  | [] => if ip.isEmpty then none else some ((digitsToNat ip : Nat) : Rat)
  | '.' :: fp =>
    if fp.all Char.isDigit && !(ip.isEmpty && fp.isEmpty) then
      some (mkRat (digitsToNat ip * 10 ^ fp.length + digitsToNat fp) (10 ^ fp.length))
    else none
  | _ => none

/-- Embeds `pd.to_numeric(..., errors="coerce")` on the decimal literals this
data contains (pandas additionally accepts exponents and surrounding
whitespace, none of which occur in the snapshots or in the claims). -/
def parseNumB : List Char → Option Rat
  | '-' :: t => (parseUnsigned t).map Neg.neg
  | '+' :: t => parseUnsigned t
  | l => parseUnsigned l

def parseValue (s : String) : Option Rat := parseNumB (stripQuotes s).toList

/-- One Observation of the Revision Table: (month, value, vintage). -/
structure Obs where
  date : Nat
  value : Rat
  vintage : Option Nat
deriving DecidableEq

/-- One snapshot file: its decoded lines (vintage extraction reads these) and
the two-column rows delivered by `pd.read_csv(header=None)` (the metadata
lines also appear there as rows; the row filter drops them). -/
structure File where
  lines : List String
  rows : List (String × String)

/-- The per-row pipeline of `parse_monthly_series`: regex filter, date
coercion, numeric coercion, dropna. A row survives exactly when all steps
succeed, and then contributes one Observation carrying the vintage. -/
def rowToObs (v : Option Nat) (r : String × String) : Option Obs :=
  if rawDateMatches r.1 then
    match parseMonthLabel r.1, parseValue r.2 with
    | some d, some x => some ⟨d, x, v⟩
    | _, _ => none
  else none

/-- Embeds `parse_monthly_series`: label every surviving row with the vintage
of the file; surviving rows keep their file order. -/
def parse_monthly_series (f : File) : List Obs :=
  f.rows.filterMap (rowToObs (extract_vintage_date f.lines))

/-- Embeds `consolidate_all_data`: concatenate the non-empty per-file parses
in directory order; raise when every file came back empty. -/
def consolidate_all_data (files : List File) : Except String (List Obs) :=
  if ((files.map parse_monthly_series).filter (fun df => !df.isEmpty)).isEmpty then
    Except.error "No valid dataframes to consolidate."
  else
    Except.ok ((files.map parse_monthly_series).filter (fun df => !df.isEmpty)).flatten

/-! ## Canonical series builder (`forecast_vacancies`, lines 135-136) -/

/-- Insertion into a list ordered by the boolean key relation. -/
def insertBy (le : α → α → Bool) (x : α) : List α → List α
  | [] => [x]
  | y :: ys => if le x y then x :: y :: ys else y :: insertBy le x ys

/-- Executable embedding of `DataFrame.sort_values`: an insertion sort,
producing a key-sorted arrangement of the input rows. Pandas guarantees no
more than that for the default quicksort kind (in particular not
stability), and no claim theorem depends on how equal keys are ordered. -/
def isortBy (le : α → α → Bool) : List α → List α
  | [] => []
  | x :: xs => insertBy le x (isortBy le xs)

/-- Vintage key order used by `sort_values("Vintage")`: pandas places the
missing vintage (`NaT`) after every dated one (`na_position="last"`), so
`none` compares as the top element. -/
def vle : Option Nat → Option Nat → Bool
  | _, none => true
  | none, some _ => false
  | some a, some b => decide (a ≤ b)

def vleObs (o1 o2 : Obs) : Bool := vle o1.vintage o2.vintage

def dleObs (o1 o2 : Obs) : Bool := decide (o1.date ≤ o2.date)

/-- Embeds `groupby("Date").tail(1)`: keep a row exactly when no later row of
the frame shares its month; kept rows stay in frame order. -/
def tail1 : List Obs → List Obs
  | [] => []
  | o :: rest =>
    if rest.any (fun o2 => o2.date == o.date) then tail1 rest
    else o :: tail1 rest

/-- Embeds line 135: `all_data.sort_values("Vintage").groupby("Date").tail(1).sort_values("Date")`. -/
def latest_data (table : List Obs) : List Obs :=
  isortBy dleObs (tail1 (isortBy vleObs table))

/-- The rows of the canonical selection for one month (what the builder keeps
of the Revision Table rows carrying that month). -/
def selectedFor (table : List Obs) (m : Nat) : List Obs :=
  (latest_data table).filter (fun o => o.date == m)

def lastD (d : α) : List α → α
  | [] => d
  | [x] => x
  | _ :: x :: t => lastD d (x :: t)

def lookupVal (m : Nat) (l : List (Nat × Rat)) : Option Rat :=
  (l.find? (fun q => q.1 == m)).map (fun q => q.2)

/-- Embeds `.asfreq(MS)` on a series indexed by month-start dates: rebuild the
series on the complete month grid from the first to the last index entry;
months absent from the index become explicit missing values. -/
def asfreqMS (l : List (Nat × Rat)) : List (Nat × Option Rat) :=
  match l with
  | [] => []
  | q :: _ =>
    let lo := q.1
    let hi := (lastD q l).1
    (List.range (hi + 1 - lo)).map (fun i => (lo + i, lookupVal (lo + i) l))

/-- Embeds line 136: the canonical series `ts` of `forecast_vacancies`. -/
def tsOf (table : List Obs) : List (Nat × Option Rat) :=
  asfreqMS ((latest_data table).map (fun o => (o.date, o.value)))

/-! ## Visualisation stage (`create_visualisations`, line 89) -/

def monthAbbrevs : List String :=
  ["Jan", "Feb", "Mar", "Apr", "May", "Jun", "Jul", "Aug", "Sep", "Oct", "Nov", "Dec"]

/-- Embeds `Date.dt.strftime("%b %Y")` on a month index. -/
def monthLabelStr (d : Nat) : String :=
  (monthAbbrevs.getD (d % 12) "") ++ " " ++ toString (d / 12)

/-- The consolidated DataFrame as downstream stages see it: its Observation
rows plus the optional derived `MonthLabel` column (absent on the
consolidator output, added in place by the visualisation stage). -/
structure AllData where
  obs : List Obs
  monthLabel : Option (List String)
deriving DecidableEq

/-- Embeds the table mutation of `create_visualisations` (line 89): the
statement `all_data["MonthLabel"] = all_data["Date"].dt.strftime("%b %Y")`
adds a derived column to the shared frame before exporting and charting; the
rest of the function only reads the frame. -/
def create_visualisations (t : AllData) : AllData :=
  { t with monthLabel := some (t.obs.map (fun o => monthLabelStr o.date)) }

/-! ## Forecast assembly (`forecast_vacancies`, lines 163-174)

The numerical fit itself lives in statsmodels; the repository code consumes
its outputs. `get_forecast(steps)` is embedded by its interface contract: a
vector of `steps` predicted means and `steps` nonnegative standard errors,
from which `conf_int()` forms the two-sided interval mean plus or minus
(critical value times standard error) with a nonnegative critical value. -/

structure PredictionRes where
  mean : List Rat
  se : List Rat

def zip4 : List α → List β → List γ → List δ → List (α × β × γ × δ)
  | a :: as, b :: bs, c :: cs, d :: ds => (a, b, c, d) :: zip4 as bs cs ds
  | _, _, _, _ => []

/-- Embeds `pd.date_range(start=ts.index[-1] + DateOffset(months=1),
periods=steps, freq=MS)`. -/
def forecast_dates (lastMonth steps : Nat) : List Nat :=
  (List.range steps).map (fun i => lastMonth + 1 + i)

/-- The last index entry of the canonical series, `ts.index[-1]`. -/
def lastMonthTS (table : List Obs) : Nat :=
  (lastD (0, none) (tsOf table)).1

/-- Embeds the `forecast_df` assembly of lines 168-174: one row per horizon
step holding (month, point forecast, lower bound, upper bound), where the
bounds follow the statsmodels interval convention described above. -/
def forecast_df (table : List Obs) (steps : Nat) (p : PredictionRes) (z : Rat) :
    List (Nat × Rat × Rat × Rat) :=
  zip4 (forecast_dates (lastMonthTS table) steps)
    p.mean
    (List.zipWith (fun m s => m - z * s) p.mean p.se)
    (List.zipWith (fun m s => m + z * s) p.mean p.se)

/-! ## Spec-side definitions (used only to state claims against the code) -/

/-- Duplicate-key detector for the C3 counterexample: two Observations share
the same (month, vintage) pair. -/
def hasDupKeys : List Obs → Bool
  | [] => false
  | o :: rest =>
    rest.any (fun o2 => o2.date == o.date && o2.vintage == o.vintage) || hasDupKeys rest

/-- Total projection of the consolidation result, for closed statements. -/
def okTable : Except String (List Obs) → List Obs
  | Except.ok l => l
  | Except.error _ => []

def datesOf (l : List Obs) : List Nat := l.map (fun o => o.date)

def minD : List Nat → Nat
  | [] => 0
  | x :: xs => xs.foldl Nat.min x

def maxD : List Nat → Nat
  | [] => 0
  | x :: xs => xs.foldl Nat.max x

/-! ## Helper lemmas about the stable sort -/

theorem mem_insertBy {le : α → α → Bool} {x z : α} :
    ∀ {l : List α}, z ∈ insertBy le x l → z = x ∨ z ∈ l := by
  intro l
  induction l with
  | nil => intro h; simp [insertBy] at h; exact Or.inl h
  | cons y ys ih =>
    intro h
    simp only [insertBy] at h
    by_cases hxy : le x y = true
    · rw [if_pos hxy] at h
      rcases List.mem_cons.mp h with h | h
      · exact Or.inl h
      · exact Or.inr h
    · rw [if_neg hxy] at h
      rcases List.mem_cons.mp h with h | h
      · exact Or.inr (h ▸ List.mem_cons_self y ys)
      · rcases ih h with h | h
        · exact Or.inl h
        · exact Or.inr (List.mem_cons_of_mem y h)

theorem insertBy_sorted {le : α → α → Bool}
    (tot : ∀ a b, le a b = true ∨ le b a = true)
    (trans : ∀ a b c, le a b = true → le b c = true → le a c = true)
    (x : α) :
    ∀ {l : List α}, l.Pairwise (fun a b => le a b = true) →
      (insertBy le x l).Pairwise (fun a b => le a b = true) := by
  intro l
  induction l with
  | nil => intro _; simp [insertBy]
  | cons y ys ih =>
    intro hs
    rcases List.pairwise_cons.mp hs with ⟨hy, hys⟩
    simp only [insertBy]
    by_cases hxy : le x y = true
    · rw [if_pos hxy]
      refine List.pairwise_cons.mpr ⟨?_, hs⟩
      intro z hz
      rcases List.mem_cons.mp hz with h | h
      · exact h ▸ hxy
      · exact trans x y z hxy (hy z h)
    · rw [if_neg hxy]
      refine List.pairwise_cons.mpr ⟨?_, ih hys⟩
      intro z hz
      rcases mem_insertBy hz with h | h
      · rcases tot y z with h2 | h2
        · exact h2
        · rcases tot x y with h3 | h3
          · exact absurd h3 hxy
          · exact h.symm ▸ h3
      · exact hy z h

theorem isortBy_sorted {le : α → α → Bool}
    (tot : ∀ a b, le a b = true ∨ le b a = true)
    (trans : ∀ a b c, le a b = true → le b c = true → le a c = true) :
    ∀ l : List α, (isortBy le l).Pairwise (fun a b => le a b = true) := by
  intro l
  induction l with
  | nil => simp [isortBy]
  | cons x xs ih => exact insertBy_sorted tot trans x ih

theorem insertBy_eq_cons {le : α → α → Bool} {x : α} {l : List α}
    (h : ∀ z ∈ l, le x z = true) : insertBy le x l = x :: l := by
  cases l with
  | nil => rfl
  | cons y ys => simp only [insertBy, if_pos (h y (List.mem_cons_self y ys))]

theorem filter_insertBy {le : α → α → Bool}
    (trans : ∀ a b c, le a b = true → le b c = true → le a c = true)
    (p : α → Bool) (x : α) :
    ∀ {l : List α}, l.Pairwise (fun a b => le a b = true) →
      (insertBy le x l).filter p =
        if p x then insertBy le x (l.filter p) else l.filter p := by
  intro l
  induction l with
  | nil =>
    intro _
    by_cases hp : p x = true <;> simp [insertBy, List.filter_cons, hp]
  | cons y ys ih =>
    intro hs
    rcases List.pairwise_cons.mp hs with ⟨hy, hys⟩
    simp only [insertBy]
    by_cases hxy : le x y = true
    · rw [if_pos hxy]
      by_cases hp : p x = true
      · rw [List.filter_cons_of_pos hp, if_pos hp]
        have hall : ∀ z ∈ (y :: ys).filter p, le x z = true := by
          intro z hz
          rcases List.mem_cons.mp (List.mem_of_mem_filter hz) with h | h
          · exact h ▸ hxy
          · exact trans x y z hxy (hy z h)
        rw [insertBy_eq_cons hall]
      · rw [List.filter_cons_of_neg hp, if_neg hp]
    · rw [if_neg hxy]
      by_cases hpy : p y = true
      · rw [List.filter_cons_of_pos hpy, List.filter_cons_of_pos hpy, ih hys]
        by_cases hp : p x = true
        · rw [if_pos hp, if_pos hp]
          simp only [insertBy, if_neg hxy]
        · rw [if_neg hp, if_neg hp]
      · rw [List.filter_cons_of_neg hpy, List.filter_cons_of_neg hpy, ih hys]

theorem filter_isortBy {le : α → α → Bool}
    (tot : ∀ a b, le a b = true ∨ le b a = true)
    (trans : ∀ a b c, le a b = true → le b c = true → le a c = true)
    (p : α → Bool) :
    ∀ l : List α, (isortBy le l).filter p = isortBy le (l.filter p) := by
  intro l
  induction l with
  | nil => rfl
  | cons x xs ih =>
    simp only [isortBy]
    rw [filter_insertBy trans p x (isortBy_sorted tot trans xs), ih, List.filter_cons]
    by_cases hp : p x = true
    · rw [if_pos hp, if_pos hp]; rfl
    · rw [if_neg hp, if_neg hp]

theorem vle_total : ∀ a b, vle a b = true ∨ vle b a = true := by
  intro a b
  cases a <;> cases b <;> (simp [vle]; try omega)

theorem vle_trans : ∀ a b c, vle a b = true → vle b c = true → vle a c = true := by
  intro a b c
  cases a <;> cases b <;> cases c <;> (simp [vle]; try omega)

theorem vleObs_total : ∀ a b : Obs, vleObs a b = true ∨ vleObs b a = true := by
  intro a b; exact vle_total a.vintage b.vintage

theorem vleObs_trans :
    ∀ a b c : Obs, vleObs a b = true → vleObs b c = true → vleObs a c = true := by
  intro a b c; exact vle_trans a.vintage b.vintage c.vintage

theorem dleObs_total : ∀ a b : Obs, dleObs a b = true ∨ dleObs b a = true := by
  intro a b; simp [dleObs]; omega

theorem dleObs_trans :
    ∀ a b c : Obs, dleObs a b = true → dleObs b c = true → dleObs a c = true := by
  intro a b c; simp [dleObs]; omega

theorem getLast?_cons_of_ne_nil {l : List α} (h : l ≠ []) (a : α) :
    (a :: l).getLast? = l.getLast? := by
  cases l with
  | nil => exact absurd rfl h
  | cons b t => exact List.getLast?_cons_cons

/-- The month-filtered rows surviving `groupby("Date").tail(1)` are exactly
the last month-filtered row of the incoming frame. -/
theorem filter_tail1 (m : Nat) :
    ∀ l : List Obs,
      (tail1 l).filter (fun o => o.date == m) =
        ((l.filter (fun o => o.date == m)).getLast?).toList := by
  intro l
  induction l with
  | nil => rfl
  | cons o rest ih =>
    simp only [tail1]
    by_cases hany : (rest.any fun o2 => o2.date == o.date) = true
    · rw [if_pos hany]
      by_cases hd : o.date = m
      · have hne : rest.filter (fun o2 => o2.date == m) ≠ [] := by
          rcases List.any_eq_true.mp hany with ⟨o2, ho2, he⟩
          intro hnil
          have hmem : o2 ∈ rest.filter (fun o2 => o2.date == m) := by
            refine List.mem_filter.mpr ⟨ho2, ?_⟩
            have : o2.date = o.date := by simpa using he
            simp [this, hd]
          rw [hnil] at hmem
          exact absurd hmem (List.not_mem_nil o2)
        rw [ih, List.filter_cons_of_pos (by simp [hd]),
          getLast?_cons_of_ne_nil hne]
      · rw [ih, List.filter_cons_of_neg (by simp [hd])]
    · rw [if_neg hany]
      by_cases hd : o.date = m
      · have hre : rest.filter (fun o2 => o2.date == m) = [] := by
          rw [List.filter_eq_nil_iff]
          intro a ha hat
          apply hany
          refine List.any_eq_true.mpr ⟨a, ha, ?_⟩
          have h3 : a.date = m := by simpa using hat
          simp [h3, hd]
        rw [List.filter_cons_of_pos (by simp [hd]), ih, hre,
          List.filter_cons_of_pos (by simp [hd]), hre]
        rfl
      · rw [List.filter_cons_of_neg (by simp [hd]), ih,
          List.filter_cons_of_neg (by simp [hd])]

/-! ## Helper lemmas about folds, last elements and sorted bounds -/

theorem foldl_min_le_init : ∀ (xs : List Nat) (a : Nat), xs.foldl Nat.min a ≤ a := by
  intro xs
  induction xs with
  | nil => intro a; exact Nat.le_refl a
  | cons x t ih =>
    intro a
    calc t.foldl Nat.min (Nat.min a x) ≤ Nat.min a x := ih (Nat.min a x)
      _ ≤ a := Nat.min_le_left a x

theorem foldl_min_le_mem :
    ∀ (xs : List Nat) (a x : Nat), x ∈ xs → xs.foldl Nat.min a ≤ x := by
  intro xs
  induction xs with
  | nil => intro a x hx; exact absurd hx (List.not_mem_nil x)
  | cons y t ih =>
    intro a x hx
    rcases List.mem_cons.mp hx with h | h
    · subst h
      calc t.foldl Nat.min (Nat.min a x) ≤ Nat.min a x := foldl_min_le_init t _
        _ ≤ x := Nat.min_le_right a x
    · exact ih (Nat.min a y) x h

theorem foldl_min_mem :
    ∀ (xs : List Nat) (a : Nat), xs.foldl Nat.min a = a ∨ xs.foldl Nat.min a ∈ xs := by
  intro xs
  induction xs with
  | nil => intro a; exact Or.inl rfl
  | cons x t ih =>
    intro a
    simp only [List.foldl_cons]
    rcases ih (Nat.min a x) with h | h
    · rw [h]
      rcases Nat.le_total a x with hle | hle
      · exact Or.inl (Nat.min_eq_left hle)
      · refine Or.inr ?_
        have hmx : a.min x = x := Nat.min_eq_right hle
        rw [hmx]
        exact List.mem_cons_self x t
    · exact Or.inr (List.mem_cons_of_mem x h)

theorem le_foldl_max_init : ∀ (xs : List Nat) (a : Nat), a ≤ xs.foldl Nat.max a := by
  intro xs
  induction xs with
  | nil => intro a; exact Nat.le_refl a
  | cons x t ih =>
    intro a
    calc a ≤ Nat.max a x := Nat.le_max_left a x
      _ ≤ t.foldl Nat.max (Nat.max a x) := ih (Nat.max a x)

theorem mem_le_foldl_max :
    ∀ (xs : List Nat) (a x : Nat), x ∈ xs → x ≤ xs.foldl Nat.max a := by
  intro xs
  induction xs with
  | nil => intro a x hx; exact absurd hx (List.not_mem_nil x)
  | cons y t ih =>
    intro a x hx
    rcases List.mem_cons.mp hx with h | h
    · subst h
      calc x ≤ Nat.max a x := Nat.le_max_right a x
        _ ≤ t.foldl Nat.max (Nat.max a x) := le_foldl_max_init t _
    · exact ih (Nat.max a y) x h

theorem foldl_max_mem :
    ∀ (xs : List Nat) (a : Nat), xs.foldl Nat.max a = a ∨ xs.foldl Nat.max a ∈ xs := by
  intro xs
  induction xs with
  | nil => intro a; exact Or.inl rfl
  | cons x t ih =>
    intro a
    simp only [List.foldl_cons]
    rcases ih (Nat.max a x) with h | h
    · rw [h]
      rcases Nat.le_total a x with hle | hle
      · refine Or.inr ?_
        have hmx : a.max x = x := Nat.max_eq_right hle
        rw [hmx]
        exact List.mem_cons_self x t
      · exact Or.inl (Nat.max_eq_left hle)
    · exact Or.inr (List.mem_cons_of_mem x h)

theorem lastD_map (f : α → β) (d : α) :
    ∀ l : List α, lastD (f d) (l.map f) = f (lastD d l) := by
  intro l
  induction l generalizing d with
  | nil => rfl
  | cons x t ih =>
    cases t with
    | nil => rfl
    | cons y s => simpa [lastD] using ih d

theorem lastD_mem (d : α) : ∀ l : List α, l ≠ [] → lastD d l ∈ l := by
  intro l
  induction l with
  | nil => intro h; exact absurd rfl h
  | cons x t ih =>
    intro _
    cases t with
    | nil => simp [lastD]
    | cons y s =>
      simp only [lastD]
      exact List.mem_cons_of_mem x (ih (List.cons_ne_nil y s))

/-- In a list sorted by a reflexive boolean order, every element is below the
last one. -/
theorem sorted_le_lastD {le : α → α → Bool}
    (refl : ∀ a, le a a = true) (d : α) :
    ∀ l : List α, l.Pairwise (fun a b => le a b = true) →
      ∀ x ∈ l, le x (lastD d l) = true := by
  intro l
  induction l with
  | nil => intro _ x hx; exact absurd hx (List.not_mem_nil x)
  | cons y t ih =>
    intro hs x hx
    rcases List.pairwise_cons.mp hs with ⟨hy, ht⟩
    cases t with
    | nil =>
      rcases List.mem_cons.mp hx with h | h
      · simpa [lastD, h] using refl y
      · exact absurd h (List.not_mem_nil x)
    | cons z s =>
      simp only [lastD]
      rcases List.mem_cons.mp hx with h | h
      · rw [h]
        exact hy _ (lastD_mem d (z :: s) (List.cons_ne_nil z s))
      · exact ih ht x h

theorem zip4_map_fst :
    ∀ (as : List α) (bs : List β) (cs : List γ) (ds : List δ),
      as.length ≤ bs.length → as.length ≤ cs.length → as.length ≤ ds.length →
      (zip4 as bs cs ds).map (fun r => r.1) = as := by
  intro as
  induction as with
  | nil => intro bs cs ds _ _ _; cases bs <;> cases cs <;> cases ds <;> rfl
  | cons a at2 ih =>
    intro bs cs ds hb hc hd
    cases bs with
    | nil => simp at hb
    | cons b bt =>
      cases cs with
      | nil => simp at hc
      | cons c ct =>
        cases ds with
        | nil => simp at hd
        | cons d dt =>
          simp only [zip4, List.map_cons]
          rw [ih bt ct dt (by simpa using hb) (by simpa using hc) (by simpa using hd)]

/-- Interval shape of every forecast row: lower = mean - z * se and
upper = mean + z * se bracket the mean when z and the standard errors are
nonnegative. -/
theorem zip4_bounds {z : Rat} (hz : 0 ≤ z) :
    ∀ (ds : List Nat) (ms ss : List Rat), (∀ s ∈ ss, 0 ≤ s) →
      ∀ r ∈ zip4 ds ms (List.zipWith (fun m s => m - z * s) ms ss)
          (List.zipWith (fun m s => m + z * s) ms ss),
        r.2.2.1 ≤ r.2.1 ∧ r.2.1 ≤ r.2.2.2 := by
  intro ds
  induction ds with
  | nil =>
    intro ms ss _ r hr
    simp [zip4] at hr
  | cons d dt ih =>
    intro ms ss hss r hr
    cases ms with
    | nil => simp [zip4] at hr
    | cons m mt =>
      cases ss with
      | nil => simp [zip4] at hr
      | cons s st =>
        simp only [List.zipWith_cons_cons, zip4, List.mem_cons] at hr
        rcases hr with h | h
        · subst h
          have hzs : 0 ≤ z * s := mul_nonneg hz (hss s (List.mem_cons_self s st))
          constructor
          · exact sub_le_self m hzs
          · exact le_add_of_nonneg_right hzs
        · exact ih mt st (fun x hx => hss x (List.mem_cons_of_mem s hx)) r h

/-! ## Character-class facts used by the label analysis -/

theorem titleCaseAux_length (st : Bool) :
    ∀ l : List Char, (titleCaseAux st l).length = l.length := by
  intro l
  induction l generalizing st with
  | nil => rfl
  | cons c cs ih => simp [titleCaseAux, ih]

/-- Looking a month up in the mapped pair list agrees with `find?` on the
original observation list. -/
theorem lookupVal_map (m : Nat) (sel : List Obs) :
    lookupVal m (sel.map (fun o => (o.date, o.value))) =
      (sel.find? (fun o => o.date == m)).map (fun o => o.value) := by
  unfold lookupVal
  rw [List.find?_map]
  rw [Option.map_map]
  rfl

/-- What the canonical builder keeps for month `m`: the last row, in
vintage-sorted order, of the rows of the Revision Table carrying month `m`. -/
theorem selectedFor_eq (table : List Obs) (m : Nat) :
    selectedFor table m =
      isortBy dleObs
        (((isortBy vleObs (table.filter (fun o => o.date == m))).getLast?).toList) := by
  unfold selectedFor latest_data
  rw [filter_isortBy dleObs_total dleObs_trans, filter_tail1,
    filter_isortBy vleObs_total vleObs_trans]

/-! ## Claim theorems -/

theorem length_filterMap_eq (g : α → Option β) :
    ∀ l : List α, (l.filterMap g).length = (l.filter (fun r => (g r).isSome)).length := by
  intro l
  induction l with
  | nil => rfl
  | cons x t ih =>
    cases hg : g x with
    | none => simp [List.filterMap_cons, List.filter_cons, hg, ih]
    | some b => simp [List.filterMap_cons, List.filter_cons, hg, ih]

theorem vleObs_refl : ∀ a : Obs, vleObs a a = true := by
  intro a
  unfold vleObs
  cases a.vintage with
  | none => rfl
  | some x => simp [vle]

theorem mem_insertBy_self {le : α → α → Bool} (x : α) :
    ∀ l : List α, x ∈ insertBy le x l := by
  intro l
  induction l with
  | nil => simp [insertBy]
  | cons y ys ih =>
    simp only [insertBy]
    by_cases h : le x y = true
    · rw [if_pos h]
      exact List.mem_cons_self x (y :: ys)
    · rw [if_neg h]
      exact List.mem_cons_of_mem y ih

theorem mem_insertBy_of_mem {le : α → α → Bool} {x a : α} :
    ∀ {l : List α}, a ∈ l → a ∈ insertBy le x l := by
  intro l
  induction l with
  | nil => intro ha; exact absurd ha (List.not_mem_nil a)
  | cons y ys ih =>
    intro ha
    simp only [insertBy]
    by_cases h : le x y = true
    · rw [if_pos h]
      exact List.mem_cons_of_mem x ha
    · rw [if_neg h]
      rcases List.mem_cons.mp ha with h2 | h2
      · exact h2 ▸ List.mem_cons_self y _
      · exact List.mem_cons_of_mem y (ih h2)

/-- Membership is preserved by the sort: the sorted frame holds exactly the
rows of the incoming frame. -/
theorem mem_isortBy {le : α → α → Bool} {a : α} :
    ∀ {l : List α}, a ∈ isortBy le l ↔ a ∈ l := by
  intro l
  induction l with
  | nil => simp [isortBy]
  | cons x xs ih =>
    simp only [isortBy]
    constructor
    · intro h
      rcases mem_insertBy h with h | h
      · exact h ▸ List.mem_cons_self x xs
      · exact List.mem_cons_of_mem x (ih.mp h)
    · intro h
      rcases List.mem_cons.mp h with h | h
      · rw [h]
        exact mem_insertBy_self x (isortBy le xs)
      · exact mem_insertBy_of_mem (ih.mpr h)

theorem getLast?_eq_lastD (d : α) :
    ∀ l : List α, l ≠ [] → l.getLast? = some (lastD d l) := by
  intro l
  induction l with
  | nil => intro h; exact absurd rfl h
  | cons x t ih =>
    intro _
    cases t with
    | nil => rfl
    | cons y s =>
      rw [List.getLast?_cons_cons, ih (List.cons_ne_nil y s)]
      rfl

/-- If one element of `L` is strictly above every other element in the key
order, it is the last element of any key-sorted arrangement of `L`; only
sortedness and membership are used — never the relative order of equal
keys — so the conclusion does not depend on the sort being stable. -/
theorem isortBy_getLast_dominant {le : α → α → Bool}
    (tot : ∀ a b, le a b = true ∨ le b a = true)
    (trans : ∀ a b c, le a b = true → le b c = true → le a c = true)
    (refl : ∀ a, le a a = true)
    {L : List α} {z : α} (hz : z ∈ L)
    (hdom : ∀ x ∈ L, x ≠ z → le z x = false) :
    (isortBy le L).getLast? = some z := by
  have hzS : z ∈ isortBy le L := mem_isortBy.mpr hz
  have hne : isortBy le L ≠ [] := List.ne_nil_of_mem hzS
  rw [getLast?_eq_lastD z (isortBy le L) hne]
  have hw : lastD z (isortBy le L) ∈ isortBy le L := lastD_mem z _ hne
  have hzw : le z (lastD z (isortBy le L)) = true :=
    sorted_le_lastD refl z _ (isortBy_sorted tot trans L) z hzS
  by_cases heq : lastD z (isortBy le L) = z
  · rw [heq]
  · have hfalse := hdom _ (mem_isortBy.mp hw) heq
    rw [hfalse] at hzw
    simp at hzw

/-- The canonical builder selects the row that strictly dominates every
other row of its month in the vintage order (`vleObs z o = false` reads: the
vintage of `o` is strictly below that of `z`, the missing vintage counting
as greatest). Holds for any encounter order of the rows. -/
theorem selectedFor_of_dominant (table : List Obs) (m : Nat) (z : Obs)
    (hz : z ∈ table.filter (fun o => o.date == m))
    (hdom : ∀ o ∈ table.filter (fun o => o.date == m), o ≠ z → vleObs z o = false) :
    selectedFor table m = [z] := by
  rw [selectedFor_eq,
    isortBy_getLast_dominant vleObs_total vleObs_trans vleObs_refl hz hdom]
  simp [isortBy, insertBy]

/-- Row survival in `parse_monthly_series` depends only on the row itself
(label filter, date parse, value parse), never on the vintage label. -/
theorem rowToObs_isSome (v : Option Nat) (r : String × String) :
    (rowToObs v r).isSome =
      (rawDateMatches r.1 && (parseMonthLabel r.1).isSome && (parseValue r.2).isSome) := by
  unfold rowToObs
  by_cases hm : rawDateMatches r.1 = true
  · rw [if_pos hm, hm]
    cases hpm : parseMonthLabel r.1 with
    | none => simp
    | some d =>
      cases hpv : parseValue r.2 with
      | none => simp
      | some x => simp
  · have hmf : rawDateMatches r.1 = false := by simpa using hm
    rw [if_neg hm, hmf]
    simp

/-- C1 counterexample: the claim quantifies over every Revision Table merely
CONTAINING two same-month Observations with distinct vintages V1 < V2 and
asserts the V2 Observation is selected; a table whose month also carries a
third row with a later vintage (here 5 > 2 > 1) refutes it — the builder
selects the vintage-5 row, not the vintage-2 row of the qualifying pair
(1, 2). -/
theorem c1_counterexample :
    ((⟨0, 100, some 1⟩ : Obs) ∈
        ([⟨0, 100, some 1⟩, ⟨0, 102, some 2⟩, ⟨0, 105, some 5⟩] : List Obs) ∧
      (⟨0, 102, some 2⟩ : Obs) ∈
        ([⟨0, 100, some 1⟩, ⟨0, 102, some 2⟩, ⟨0, 105, some 5⟩] : List Obs) ∧
      (1 : Nat) < 2 ∧
      selectedFor [⟨0, 100, some 1⟩, ⟨0, 102, some 2⟩, ⟨0, 105, some 5⟩] 0 =
        [⟨0, 105, some 5⟩]) ∧
      selectedFor [⟨0, 100, some 1⟩, ⟨0, 102, some 2⟩, ⟨0, 105, some 5⟩] 0 ≠
        [⟨0, 102, some 2⟩] := by
  decide

/-- C1 amended: for every Revision Table and month in which some Observation
`o2` carries a dated vintage `V2` strictly later than the vintage of every
other row of that month, the canonical-series builder (sort by Vintage,
group by month, take the last row per group) selects `o2` — whatever the
encounter order of the rows and however many rows the month has; in
particular, when exactly two rows with vintages V1 < V2 report the month,
the V2 row is selected, whichever was encountered first. The builder is a
pure function of the table, hence deterministic. The equal-vintage tie-break
is likewise deterministic but is not asserted to follow encounter order:
`sort_values` defaults to quicksort, which pandas does not document as
stable, so the proof relies only on the sort producing a vintage-sorted
arrangement of the same rows. -/
theorem c1_max_vintage_selected (table : List Obs) (m : Nat) (o2 : Obs) (v2 : Nat)
    (ho : o2 ∈ table.filter (fun o => o.date == m))
    (hv : o2.vintage = some v2)
    (hmax : ∀ o ∈ table.filter (fun o => o.date == m), o ≠ o2 →
      ∃ w, o.vintage = some w ∧ w < v2) :
    selectedFor table m = [o2] := by
  apply selectedFor_of_dominant table m o2 ho
  intro o hoF hne
  rcases hmax o hoF hne with ⟨w, hw, hlt⟩
  simp only [vleObs, hv, hw, vle, decide_eq_false_iff_not]
  omega

theorem c1_witness :
    selectedFor [⟨0, 102, some 2⟩, ⟨0, 100, some 1⟩] 0 = [⟨0, 102, some 2⟩] := by
  apply c1_max_vintage_selected [⟨0, 102, some 2⟩, ⟨0, 100, some 1⟩] 0
    ⟨0, 102, some 2⟩ 2 (by decide) rfl
  intro o ho hne
  have hfe : ([⟨0, 102, some 2⟩, ⟨0, 100, some 1⟩] : List Obs).filter
      (fun o => o.date == 0) = [⟨0, 102, some 2⟩, ⟨0, 100, some 1⟩] := by decide
  rw [hfe] at ho
  rcases List.mem_cons.mp ho with h2 | h2
  · exact absurd h2 hne
  · rcases List.mem_cons.mp h2 with h3 | h3
    · exact ⟨1, by rw [h3], by decide⟩
    · exact absurd h3 (List.not_mem_nil o)

/-- C4: a snapshot whose vintage is unparseable has its Observations labeled
with the missing-timestamp sentinel and genuinely retained — exactly the
rows passing the row-level filters survive, the missing vintage dropping
nothing (row survival is vintage-independent), and every surviving
Observation carries `none`; and in canonical selection the vintage sort
places the missing vintage after every dated one (the `na_position`
default), so for any month whose rows comprise one unknown-vintage
Observation and otherwise dated ones — in any encounter order — the
unknown-vintage Observation is the one selected. The selection proof uses
only sortedness and membership of the vintage sort, not stability. -/
theorem c4_unknown_vintage_retained_and_wins (f : File)
    (hf : extract_vintage_date f.lines = none)
    (table : List Obs) (m : Nat) (oN : Obs)
    (ho : oN ∈ table.filter (fun o => o.date == m))
    (hN : oN.vintage = none)
    (hdated : ∀ o ∈ table.filter (fun o => o.date == m), o ≠ oN →
      ∃ w, o.vintage = some w) :
    ((parse_monthly_series f).length =
        (f.rows.filter (fun r => rawDateMatches r.1 && (parseMonthLabel r.1).isSome &&
          (parseValue r.2).isSome)).length ∧
      ∀ o ∈ parse_monthly_series f, o.vintage = none) ∧
      selectedFor table m = [oN] := by
  refine ⟨⟨?_, ?_⟩, ?_⟩
  · unfold parse_monthly_series
    rw [length_filterMap_eq]
    congr 1
    apply List.filter_congr
    intro r _
    exact rowToObs_isSome (extract_vintage_date f.lines) r
  · intro o hoP
    unfold parse_monthly_series at hoP
    rw [hf] at hoP
    rcases List.mem_filterMap.mp hoP with ⟨r, _, he⟩
    unfold rowToObs at he
    by_cases hm2 : rawDateMatches r.1 = true
    · rw [if_pos hm2] at he
      cases hpm : parseMonthLabel r.1 with
      | none => rw [hpm] at he; simp at he
      | some d =>
        cases hpv : parseValue r.2 with
        | none => rw [hpm, hpv] at he; simp at he
        | some x =>
          rw [hpm, hpv] at he
          simp only [Option.some_inj] at he
          rw [← he]
    · rw [if_neg hm2] at he
      simp at he
  · apply selectedFor_of_dominant table m oN ho
    intro o hoF hne
    rcases hdated o hoF hne with ⟨w, hw⟩
    simp [vleObs, hN, hw, vle]

theorem c4_witness :
    (parse_monthly_series ⟨["no date here"], [("2024 JAN", "900")]⟩).length = 1 ∧
      selectedFor [⟨0, 102, some 2⟩, ⟨0, 100, none⟩] 0 = [⟨0, 100, none⟩] := by
  have hd : ∀ o ∈ ([⟨0, 102, some 2⟩, ⟨0, 100, none⟩] : List Obs).filter
      (fun o => o.date == 0), o ≠ (⟨0, 100, none⟩ : Obs) → ∃ w, o.vintage = some w := by
    intro o ho hne
    have hfe : ([⟨0, 102, some 2⟩, ⟨0, 100, none⟩] : List Obs).filter
        (fun o => o.date == 0) = [⟨0, 102, some 2⟩, ⟨0, 100, none⟩] := by decide
    rw [hfe] at ho
    rcases List.mem_cons.mp ho with h2 | h2
    · exact ⟨2, by rw [h2]⟩
    · rcases List.mem_cons.mp h2 with h3 | h3
      · exact absurd h3 hne
      · exact absurd h3 (List.not_mem_nil o)
  have h := c4_unknown_vintage_retained_and_wins ⟨["no date here"], [("2024 JAN", "900")]⟩
    (by decide) [⟨0, 102, some 2⟩, ⟨0, 100, none⟩] 0 ⟨0, 100, none⟩
    (by decide) rfl hd
  exact ⟨h.1.1.trans (by decide), h.2⟩

/-- C3 counterexample: one input file holding two monthly rows for the same
month (2024 JAN) yields a consolidated Revision Table with two Observations
for the same (month, vintage) pair — the duplicate is neither rejected nor
deduplicated, contradicting the claimed at-most-one invariant. -/
theorem c3_counterexample :
    hasDupKeys (okTable (consolidate_all_data
      [⟨["Release date,10-01-2024"], [("2024 JAN", "100"), ("2024 JAN", "101")]⟩])) = true := by
  decide

/-- C3 amended: consolidation enforces no per-(month, vintage) uniqueness —
every row that parses becomes an Observation, duplicates included, so the
Revision Table may hold several Observations per (month, vintage) pair;
deduplication is deferred to the Canonical Series Builder, which keeps at
most one row per month. -/
theorem c3_no_dedup_in_parser_dedup_in_builder :
    (∀ f : File,
        (parse_monthly_series f).length =
          (f.rows.filter
            (fun r => (rowToObs (extract_vintage_date f.lines) r).isSome)).length) ∧
      (∀ (table : List Obs) (m : Nat), (selectedFor table m).length ≤ 1) := by
  constructor
  · intro f
    unfold parse_monthly_series
    exact length_filterMap_eq (rowToObs (extract_vintage_date f.lines)) f.rows
  · intro table m
    rw [selectedFor_eq]
    cases h : (isortBy vleObs (table.filter (fun o => o.date == m))).getLast? with
    | none => simp [isortBy]
    | some o => simp [isortBy, insertBy]

/-- C7: consolidation raises the "no data" error exactly when no input file
yields any valid Observation; a file yielding zero Observations is silently
excluded, and the batch succeeds (returns a table) whenever at least one
file contributes rows. -/
theorem c7_error_iff_no_file_contributes (files : List File) :
    (consolidate_all_data files = Except.error "No valid dataframes to consolidate." ↔
      ∀ f ∈ files, parse_monthly_series f = []) ∧
      ((∃ f ∈ files, parse_monthly_series f ≠ []) →
        ∃ L, consolidate_all_data files = Except.ok L) := by
  have hkey :
      ((files.map parse_monthly_series).filter (fun df => !df.isEmpty)).isEmpty = true ↔
        ∀ f ∈ files, parse_monthly_series f = [] := by
    rw [List.isEmpty_iff, List.filter_eq_nil_iff]
    constructor
    · intro h f hf
      have := h (parse_monthly_series f) (List.mem_map_of_mem parse_monthly_series hf)
      simpa using this
    · intro h df hdf
      rcases List.mem_map.mp hdf with ⟨f, hf, rfl⟩
      simpa using h f hf
  by_cases he :
      ((files.map parse_monthly_series).filter (fun df => !df.isEmpty)).isEmpty = true
  · have hcon :
        consolidate_all_data files = Except.error "No valid dataframes to consolidate." := by
      unfold consolidate_all_data
      rw [if_pos he]
    refine ⟨⟨fun _ => hkey.mp he, fun _ => hcon⟩, ?_⟩
    rintro ⟨f, hf, hne⟩
    exact absurd (hkey.mp he f hf) hne
  · have hcon :
        consolidate_all_data files =
          Except.ok ((files.map parse_monthly_series).filter (fun df => !df.isEmpty)).flatten := by
      unfold consolidate_all_data
      rw [if_neg he]
    constructor
    · rw [hcon]
      constructor
      · intro h; exact absurd h (by simp)
      · intro h; exact absurd (hkey.mpr h) he
    · intro _
      exact ⟨_, hcon⟩

theorem c7_witness :
    consolidate_all_data
        [⟨[], [("2024 Q1", "5")]⟩, ⟨["Release date,10-01-2024"], [("2024 JAN", "900")]⟩] ≠
      Except.error "No valid dataframes to consolidate." := by
  intro h
  have hall :=
    (c7_error_iff_no_file_contributes
      [⟨[], [("2024 Q1", "5")]⟩, ⟨["Release date,10-01-2024"], [("2024 JAN", "900")]⟩]).1.mp h
  have := hall ⟨["Release date,10-01-2024"], [("2024 JAN", "900")]⟩ (by simp)
  simp [parse_monthly_series, rowToObs] at this
  revert this
  decide

theorem dleObs_refl : ∀ a : Obs, dleObs a a = true := by
  intro a; simp [dleObs]

theorem asfreqMS_cons (q : Nat × Rat) (t : List (Nat × Rat)) :
    asfreqMS (q :: t) =
      (List.range ((lastD q (q :: t)).1 + 1 - q.1)).map
        (fun i => (q.1 + i, lookupVal (q.1 + i) (q :: t))) := rfl

/-- C6: the canonical series is one entry per month on the strict month-start
grid from the minimum to the maximum month of the selected Observations, and
a month of that span with no Observation carries an explicit missing value
(the lookup fails) rather than being omitted. -/
theorem c6_canonical_grid (table : List Obs) (h : latest_data table ≠ []) :
    ((tsOf table).map Prod.fst =
      List.range' (minD (datesOf (latest_data table)))
        (maxD (datesOf (latest_data table)) + 1 - minD (datesOf (latest_data table)))) ∧
      (∀ q ∈ tsOf table,
        q.2 = ((latest_data table).find? (fun o => o.date == q.1)).map (fun o => o.value)) := by
  cases hs : latest_data table with
  | nil => exact absurd hs h
  | cons o rest =>
    have hsorted : (o :: rest).Pairwise (fun a b => dleObs a b = true) := by
      rw [← hs]
      unfold latest_data
      exact isortBy_sorted dleObs_total dleObs_trans _
    rcases List.pairwise_cons.mp hsorted with ⟨hofirst, _⟩
    have hmin : minD (datesOf (o :: rest)) = o.date := by
      simp only [datesOf, List.map_cons, minD]
      apply Nat.le_antisymm
      · exact foldl_min_le_init _ o.date
      · rcases foldl_min_mem (rest.map (fun ob => ob.date)) o.date with hcase | hcase
        · rw [hcase]
        · rcases List.mem_map.mp hcase with ⟨x, hx, hxd⟩
          have hox := hofirst x hx
          simp only [dleObs, decide_eq_true_eq] at hox
          omega
    have hlast := sorted_le_lastD dleObs_refl o (o :: rest) hsorted
    have hmax : maxD (datesOf (o :: rest)) = (lastD o (o :: rest)).date := by
      simp only [datesOf, List.map_cons, maxD]
      apply Nat.le_antisymm
      · rcases foldl_max_mem (rest.map (fun ob => ob.date)) o.date with hcase | hcase
        · rw [hcase]
          have hoL := hlast o (List.mem_cons_self o rest)
          simp only [dleObs, decide_eq_true_eq] at hoL
          exact hoL
        · rcases List.mem_map.mp hcase with ⟨x, hx, hxd⟩
          have hxL := hlast x (List.mem_cons_of_mem o hx)
          simp only [dleObs, decide_eq_true_eq] at hxL
          omega
      · have hLmem : lastD o (o :: rest) ∈ o :: rest :=
          lastD_mem o (o :: rest) (List.cons_ne_nil o rest)
        rcases List.mem_cons.mp hLmem with hcase | hcase
        · rw [hcase]
          exact le_foldl_max_init _ _
        · exact mem_le_foldl_max _ _ _ (List.mem_map_of_mem (fun ob => ob.date) hcase)
    have hts : tsOf table =
        (List.range ((lastD o (o :: rest)).date + 1 - o.date)).map
          (fun i => (o.date + i,
            lookupVal (o.date + i) ((o :: rest).map (fun ob => (ob.date, ob.value))))) := by
      unfold tsOf
      rw [hs]
      simp only [List.map_cons]
      rw [asfreqMS_cons]
      have hl := lastD_map (fun ob => (ob.date, ob.value)) o (o :: rest)
      simp only [List.map_cons] at hl
      rw [hl]
    constructor
    · rw [hmin, hmax, hts, List.map_map, List.range'_eq_map_range]
      rfl
    · intro q hq
      rw [hts] at hq
      rcases List.mem_map.mp hq with ⟨i, _, hqe⟩
      rw [← hqe]
      show lookupVal (o.date + i) ((o :: rest).map (fun ob => (ob.date, ob.value))) = _
      rw [lookupVal_map]

theorem c6_witness :
    (tsOf [⟨5, 1, some 1⟩, ⟨8, 2, some 2⟩]).map Prod.fst = List.range' 5 4 := by
  exact (c6_canonical_grid [⟨5, 1, some 1⟩, ⟨8, 2, some 2⟩] (by decide)).1

/-- C2: for a canonical series long enough to fit ARIMA(1,1,1) (at least 3
observations) and a horizon of at least one step, the assembled Forecast
Result has exactly `steps` rows, its months are the consecutive month-start
dates beginning one month after the last month of the canonical series, and
every row satisfies lower bound ≤ point forecast ≤ upper bound. The
statsmodels fit is embedded by its interface contract: `get_forecast(steps)`
returns `steps` predicted means with `steps` nonnegative standard errors, and
`conf_int()` is mean plus or minus a nonnegative critical value times the
standard error. -/
theorem c2_forecast_shape (table : List Obs) (steps : Nat) (p : PredictionRes) (z : Rat)
    (_hlen : 3 ≤ (tsOf table).length)
    (_hsteps : 1 ≤ steps)
    (hm : p.mean.length = steps) (hs : p.se.length = steps)
    (hz : 0 ≤ z) (hse : ∀ s ∈ p.se, 0 ≤ s) :
    (forecast_df table steps p z).length = steps ∧
      (forecast_df table steps p z).map (fun r => r.1) =
        List.range' (lastMonthTS table + 1) steps ∧
      ∀ r ∈ forecast_df table steps p z, r.2.2.1 ≤ r.2.1 ∧ r.2.1 ≤ r.2.2.2 := by
  have hdates : (forecast_dates (lastMonthTS table) steps).length = steps := by
    simp [forecast_dates]
  have hmap : (forecast_df table steps p z).map (fun r => r.1) =
      forecast_dates (lastMonthTS table) steps := by
    unfold forecast_df
    apply zip4_map_fst
    · rw [hdates, hm]
    · rw [hdates, List.length_zipWith, hm, hs]
      simp
    · rw [hdates, List.length_zipWith, hm, hs]
      simp
  refine ⟨?_, ?_, ?_⟩
  · have hlength := congrArg List.length hmap
    rw [List.length_map] at hlength
    rw [hlength, hdates]
  · rw [hmap]
    unfold forecast_dates
    rw [List.range'_eq_map_range]
  · intro r hr
    exact zip4_bounds hz _ _ _ hse r hr

theorem c2_witness :
    (forecast_df [⟨0, 1, some 1⟩, ⟨1, 2, some 1⟩, ⟨2, 3, some 1⟩] 2
      ⟨[10, 11], [1, 1]⟩ 2).length = 2 :=
  (c2_forecast_shape [⟨0, 1, some 1⟩, ⟨1, 2, some 1⟩, ⟨2, 3, some 1⟩] 2
    ⟨[10, 11], [1, 1]⟩ 2 (by decide) (by decide) rfl rfl (by decide) (by decide)).1

/-- C9: for a snapshot whose lines before `line` are free of release-date
markers with a date-shaped substring, where `line` holds the marker and its
first `DD-MM-YYYY` match reads (d, m, y), a valid calendar date in the
representable range, the extracted vintage is exactly that date (round-trip);
and when no line holds both the marker and a date-shaped substring, the
vintage is the missing sentinel. -/
theorem c9_vintage_roundtrip (pre : List String) (line : String) (post : List String)
    (d m y : Nat)
    (hpre : ∀ s ∈ pre, hasSub s.toList relMarker = false ∨ findDMY s.toList = none)
    (hmark : hasSub line.toList relMarker = true)
    (hfind : findDMY line.toList = some (d, m, y))
    (hvalid : validDMY d m y = true) :
    extract_vintage_date (pre ++ line :: post) = some (encodeDMY d m y) ∧
      ∀ ls : List String,
        (∀ s ∈ ls, hasSub s.toList relMarker = false ∨ findDMY s.toList = none) →
        extract_vintage_date ls = none := by
  simp only [String.toList] at hpre hmark hfind
  constructor
  · revert hpre
    induction pre with
    | nil => intro _; simp [extract_vintage_date, hmark, hfind, hvalid]
    | cons s t ih =>
      intro hpre
      have hst := hpre s (List.mem_cons_self s t)
      have ihh := ih (fun x hx => hpre x (List.mem_cons_of_mem s hx))
      rcases hst with hcase | hcase
      · simpa [extract_vintage_date, hcase] using ihh
      · have hsplit : hasSub s.data relMarker = true ∨ hasSub s.data relMarker = false := by
          cases hasSub s.data relMarker
          · exact Or.inr rfl
          · exact Or.inl rfl
        rcases hsplit with hm2 | hm2
        · simpa [extract_vintage_date, hm2, hcase] using ihh
        · simpa [extract_vintage_date, hm2] using ihh
  · intro ls
    induction ls with
    | nil => intro _; rfl
    | cons s t ih =>
      intro hls
      simp only [String.toList] at hls
      have hst := hls s (List.mem_cons_self s t)
      have ihh := ih (fun x hx => by
        simpa [String.toList] using hls x (List.mem_cons_of_mem s hx))
      rcases hst with hcase | hcase
      · simpa [extract_vintage_date, hcase] using ihh
      · have hsplit : hasSub s.data relMarker = true ∨ hasSub s.data relMarker = false := by
          cases hasSub s.data relMarker
          · exact Or.inr rfl
          · exact Or.inl rfl
        rcases hsplit with hm2 | hm2
        · simpa [extract_vintage_date, hm2, hcase] using ihh
        · simpa [extract_vintage_date, hm2] using ihh

theorem c9_witness :
    extract_vintage_date
        ["Title,UK Vacancies", "Release date,10-01-2024", "2024 JAN,900"] =
        some 20240110 ∧
      extract_vintage_date ["no marker here"] = none := by
  constructor
  · exact (c9_vintage_roundtrip ["Title,UK Vacancies"] "Release date,10-01-2024"
      ["2024 JAN,900"] 10 1 2024 (by decide) (by decide) (by decide) (by decide)).1
  · exact (c9_vintage_roundtrip ["Title,UK Vacancies"] "Release date,10-01-2024"
      ["2024 JAN,900"] 10 1 2024 (by decide) (by decide) (by decide) (by decide)).2
      ["no marker here"] (by decide)

/-- C10 counterexample: the visualisation stage does not consume the Revision
Table unchanged — its first statement adds a derived MonthLabel column to the
shared frame in place, so the table exposed to visualisation consumers (and
passed on to forecasting) is not column-for-column identical to the
consolidator output. -/
theorem c10_counterexample :
    create_visualisations ⟨[⟨24289, 100, some 20240110⟩], none⟩ ≠
      (⟨[⟨24289, 100, some 20240110⟩], none⟩ : AllData) := by
  decide

/-- C10 amended: `create_visualisations` mutates the shared table only by
adding the derived MonthLabel column (one label per Observation row, computed
from the month); the Observation rows themselves — months, values, vintages,
their number and order — are never changed after consolidation, so the
canonical-series builder and forecaster downstream see exactly the
consolidated Observations. -/
theorem c10_label_added_rows_unchanged (t : AllData) :
    (create_visualisations t).obs = t.obs ∧
      (create_visualisations t).monthLabel =
        some (t.obs.map (fun o => monthLabelStr o.date)) ∧
      ((create_visualisations t).monthLabel.map List.length) = some t.obs.length ∧
      latest_data (create_visualisations t).obs = latest_data t.obs := by
  refine ⟨rfl, rfl, ?_, rfl⟩
  simp [create_visualisations]

end UKV
